import Mathlib

/-!
Verification of the rename-planning core of `file_renamer.py`.

Shallow embedding conventions:
* Paths and names are `List Char` with POSIX separator `'/'`.
* `os.path.join`, `os.path.split`, `os.path.splitext` are embedded from the
  CPython `posixpath` algorithms.
* Case folding (`str.lower`, `re.IGNORECASE` on literal patterns) is modelled
  by ASCII lower-casing (`pyLower`); the development is scoped to ASCII names.
* Filesystem state is a predicate `ex : List Char → Bool` (`os.path.exists`),
  and the walker output (`iter_targets`) is an explicit list of
  `(path, is_dir)` pairs, which every theorem quantifies over.
* Unbounded `while` loops carry an explicit fuel argument and return `none`
  when the fuel runs out (the Python loop would not have terminated within
  that many probes); exceptions that a function lets escape are `none`.
* The regular-expression engine is abstract (`RegexEngine`); concrete facts
  about Python `re` needed by single claims use the documented model
  `reLiteralModel` for metacharacter-free patterns.
-/

/-- ASCII lower-casing, modelling Python `str.lower` (and the effect of
`re.IGNORECASE` on literal patterns) on ASCII characters. -/
def pyLower (c : Char) : Char :=
  if 'A' ≤ c ∧ c ≤ 'Z' then Char.ofNat (c.toNat + 32) else c

/-- A name is separator-free when it contains no `'/'`. -/
def sepFree (l : List Char) : Prop := '/' ∉ l

instance (l : List Char) : Decidable (sepFree l) := by
  unfold sepFree; infer_instance

/-- `posixpath.join(a, b)` for a single pair: if `b` is absolute, return `b`;
if `a` is empty or ends with the separator, concatenate; otherwise insert a
separator. -/
def osJoin (a b : List Char) : List Char :=
  if b.head? = some '/' then b
  else if a = [] ∨ a.reverse.head? = some '/' then a ++ b
  else a ++ '/' :: b

/-- The conditional `head.rstrip('/')` of `posixpath.split`: trailing
separators are stripped unless the head consists only of separators (or is
empty). -/
def stripTrailingSlashes (head : List Char) : List Char :=
  if head.any (fun c => c ≠ '/') then
    (head.reverse.dropWhile (fun c => c = '/')).reverse
  else head

/-- `posixpath.split(p)`: split after the last separator; the head keeps its
trailing separators stripped unless it consists only of separators. -/
def osSplit (p : List Char) : List Char × List Char :=
  (stripTrailingSlashes ((p.reverse.dropWhile (fun c => c ≠ '/')).reverse),
   (p.reverse.takeWhile (fun c => c ≠ '/')).reverse)

/-- `os.path.basename`, i.e. the second component of `os.path.split`. -/
def basename (p : List Char) : List Char := (osSplit p).2

/-- Index (from the left) of the last occurrence of `c` in `p`, if any. -/
def lastIdxOf (c : Char) (p : List Char) : Option Nat :=
  (p.reverse.findIdx? (fun x => x = c)).map (fun j => p.length - 1 - j)

/-- `posixpath.splitext(p)`: split at the last `'.'` that lies after the last
separator and is preceded (within the base name) by at least one non-dot
character; otherwise the extension is empty. -/
def splitext (p : List Char) : List Char × List Char :=
  match lastIdxOf '.' p with
  | none => (p, [])
  | some d =>
    let fi : Nat :=
      match lastIdxOf '/' p with
      | none => 0
      | some s => s + 1
    let sepOk : Bool :=
      match lastIdxOf '/' p with
      | none => true
      | some s => decide (s < d)
    if sepOk ∧ ¬ ((p.drop fi).take (d - fi)).all (fun x => x = '.') then
      (p.take d, p.drop d)
    else (p, [])

/-- Decimal digit character for `d < 10` (as rendered by an f-string). -/
def digitChar (d : Nat) : Char :=
  match d with
  | 0 => '0' | 1 => '1' | 2 => '2' | 3 => '3' | 4 => '4'
  | 5 => '5' | 6 => '6' | 7 => '7' | 8 => '8' | _ => '9'

/-- Decimal digits of `n` (fuelled helper; `natDigits` supplies enough fuel). -/
def natDigitsAux : Nat → Nat → List Char
  | 0, _ => []
  | fuel + 1, n =>
    if n < 10 then [digitChar n]
    else natDigitsAux fuel (n / 10) ++ [digitChar (n % 10)]

/-- Decimal rendering of a natural number, as `f"{i}"` renders it. -/
def natDigits (n : Nat) : List Char := natDigitsAux (n + 1) n

/-- Python's substring test `needle in hay`: some suffix of `hay` starts
with `needle`. -/
def pyInStr (needle hay : List Char) : Bool :=
  hay.tails.any (fun t => needle.isPrefixOf t)

/-- `name_matches(name, term, case_sensitive)` from the source: an empty term
never matches; otherwise substring containment, lower-casing both operands
when case-insensitive. -/
def name_matches (name term : List Char) (case_sensitive : Bool) : Bool :=
  if term = [] then false
  else if case_sensitive then pyInStr term name
  else pyInStr (term.map pyLower) (name.map pyLower)

/-- One piece of a parsed `re.sub` replacement template: a literal character
or a reference to group 0 (the whole match). -/
inductive TPart where
  | lit : Char → TPart
  | group0 : TPart
deriving DecidableEq

/-- Octal digit test. -/
def isOct (c : Char) : Bool := decide ('0' ≤ c ∧ c ≤ '7')

/-- Numeric value of a digit character. -/
def octVal (c : Char) : Nat := c.toNat - 48

/-- Python `re` replacement-template parsing (`re._parser.parse_template`)
for a pattern with no capturing groups, as used by `ci_replace` (its pattern
is `re.escape(find_term)`): `\\` is a literal backslash, `\g<0>` is the whole
match, `\a \b \f \n \r \t \v` are the usual control characters, `\0` starts
an octal escape of up to two more octal digits, three octal digits also form
an octal escape, any other group reference is an error (the pattern has no
groups), a backslash before any other ASCII letter is an error, and a
backslash before any other character keeps both characters.  Errors are
`none` (Python raises `re.error`). -/
def parseTemplate : List Char → Option (List TPart)
  | [] => some []
  | c :: rest =>
    if c ≠ '\\' then (parseTemplate rest).map (fun l => TPart.lit c :: l)
    else
      match rest with
      | [] => none
      | e :: r2 =>
        if e = '\\' then (parseTemplate r2).map (fun l => TPart.lit '\\' :: l)
        else if e = 'g' then
          match r2 with
          | '<' :: '0' :: '>' :: r3 =>
            (parseTemplate r3).map (fun l => TPart.group0 :: l)
          | _ => none
        else if e = 'a' then
          (parseTemplate r2).map (fun l => TPart.lit (Char.ofNat 7) :: l)
        else if e = 'b' then
          (parseTemplate r2).map (fun l => TPart.lit (Char.ofNat 8) :: l)
        else if e = 'f' then
          (parseTemplate r2).map (fun l => TPart.lit (Char.ofNat 12) :: l)
        else if e = 'n' then
          (parseTemplate r2).map (fun l => TPart.lit (Char.ofNat 10) :: l)
        else if e = 'r' then
          (parseTemplate r2).map (fun l => TPart.lit (Char.ofNat 13) :: l)
        else if e = 't' then
          (parseTemplate r2).map (fun l => TPart.lit (Char.ofNat 9) :: l)
        else if e = 'v' then
          (parseTemplate r2).map (fun l => TPart.lit (Char.ofNat 11) :: l)
        else if e = '0' then
          match r2 with
          | d1 :: d2 :: r3 =>
            if isOct d1 && isOct d2 then
              (parseTemplate r3).map
                (fun l => TPart.lit (Char.ofNat (octVal d1 * 8 + octVal d2)) :: l)
            else if isOct d1 then
              (parseTemplate (d2 :: r3)).map
                (fun l => TPart.lit (Char.ofNat (octVal d1)) :: l)
            else
              (parseTemplate (d1 :: d2 :: r3)).map
                (fun l => TPart.lit (Char.ofNat 0) :: l)
          | [d1] =>
            if isOct d1 then some [TPart.lit (Char.ofNat (octVal d1))]
            else (parseTemplate [d1]).map (fun l => TPart.lit (Char.ofNat 0) :: l)
          | [] => some [TPart.lit (Char.ofNat 0)]
        else if e.isDigit then
          match r2 with
          | d2 :: d3 :: r3 =>
            if isOct e && isOct d2 && isOct d3 then
              let v := octVal e * 64 + octVal d2 * 8 + octVal d3
              if v ≤ 255 then
                (parseTemplate r3).map (fun l => TPart.lit (Char.ofNat v) :: l)
              else none
            else none
          | _ => none
        else if e.isAlpha then none
        else (parseTemplate r2).map (fun l => TPart.lit '\\' :: TPart.lit e :: l)

/-- Instantiate a parsed template at a concrete matched slice. -/
def applyTemplate (tmpl : List TPart) (matched : List Char) : List Char :=
  tmpl.flatMap
    (fun t => match t with | TPart.lit c => [c] | TPart.group0 => matched)

/-- Leftmost, non-overlapping replacement scan shared by Python `str.replace`
(fold `id`, literal template) and `re.sub` on an escaped literal pattern with
`re.IGNORECASE` (fold `pyLower`, parsed template).  The fuel is at least the
text length, which suffices because the find term is nonempty at every call
site (each step consumes at least one character). -/
def pyReplaceScanF (fold : Char → Char) (find : List Char) (tmpl : List TPart) :
    Nat → List Char → List Char
  | 0, text => text
  | _ + 1, [] => []
  | fuel + 1, c :: rest =>
    if ((c :: rest).take find.length).map fold = find.map fold then
      applyTemplate tmpl ((c :: rest).take find.length) ++
        pyReplaceScanF fold find tmpl fuel ((c :: rest).drop find.length)
    else c :: pyReplaceScanF fold find tmpl fuel rest

/-- `ci_replace(text, find_term, replace_with, case_sensitive)` from the
source.  An empty find term returns the text unchanged.  The case-sensitive
branch is `str.replace` (all occurrences, literal replacement).  The
case-insensitive branch is `re.sub(re.escape(find_term), replace_with, text)`
with `re.IGNORECASE`: occurrences are located case-insensitively and the
replacement string is processed as a `re` template; a template error
(`re.error`, which the source does not catch) is `none`. -/
def ci_replace (text find_term replace_with : List Char) (case_sensitive : Bool) :
    Option (List Char) :=
  if find_term = [] then some text
  else if case_sensitive then
    some (pyReplaceScanF id find_term (replace_with.map TPart.lit) text.length text)
  else
    (parseTemplate replace_with).map
      (fun tmpl => pyReplaceScanF pyLower find_term tmpl text.length text)

/-- The behaviour the specification ascribes to `ci_replace`: every
(case-folded, when case-insensitive) occurrence of the find term is replaced
by the replacement string inserted literally.  Stated from the spec's words
for comparison with `ci_replace`. -/
def ci_replace_literal_spec (text find_term replace_with : List Char)
    (case_sensitive : Bool) : List Char :=
  if find_term = [] then text
  else
    pyReplaceScanF (if case_sensitive then id else pyLower) find_term
      (replace_with.map TPart.lit) text.length text

/-- Abstract interface to Python `re` as used by the source: compilation
success, `search` as a Boolean, and `sub`.  All arguments take the pattern,
the case-sensitivity flag (false adds `re.IGNORECASE`), and then the
subject/replacement. -/
structure RegexEngine where
  compiles : List Char → Bool → Bool
  search : List Char → Bool → List Char → Bool
  subst : List Char → Bool → List Char → List Char → List Char

/-- `regex_replace_name(name, pattern, repl, case_sensitive)` from the source:
`none` models the `ValueError` raised on a pattern that fails to compile;
otherwise `(matched, new_name)` with `new_name = name` when the search
fails. -/
def regex_replace_name (E : RegexEngine) (name pattern repl : List Char)
    (case_sensitive : Bool) : Option (Bool × List Char) :=
  if E.compiles pattern case_sensitive then
    if E.search pattern case_sensitive name then
      some (true, E.subst pattern case_sensitive repl name)
    else some (false, name)
  else none

/-- Model of Python `re` for metacharacter-free patterns: every such pattern
compiles, and `re.search` succeeds exactly when the pattern occurs in the
name as a (case-folded, when `re.IGNORECASE`) substring.  In particular the
empty pattern compiles and yields a zero-width match at position 0 of every
name, so `search` on it is always true.  The `subst` field is not exercised
by any statement in this file and is left as the identity on the name. -/
def reLiteralModel : RegexEngine where
  compiles := fun _ _ => true
  search := fun p cs name =>
    if cs then pyInStr p name else pyInStr (p.map pyLower) (name.map pyLower)
  subst := fun _ _ _ name => name

/-- `eligible(path, is_dir, exts)` from the source: directories are always
eligible; an empty extension list accepts every file; otherwise the
lower-cased extension of the path must be listed. -/
def eligible (path : List Char) (is_dir : Bool) (exts : List (List Char)) : Bool :=
  if is_dir then true
  else if exts = [] then true
  else exts.contains ((splitext path).2.map pyLower)

/-- `find_matches` from the source, over an explicit walker output: keep the
eligible entries whose base name matches, where regex mode uses
`re.search` (an entry whose pattern fails to compile is skipped by the
`except re.error` handler). -/
def find_matches (E : RegexEngine) (find_term : List Char) (case_sensitive : Bool)
    (exts : List (List Char)) (regex : Bool)
    (targets : List (List Char × Bool)) : List (List Char × Bool) :=
  targets.filter (fun t =>
    eligible t.1 t.2 exts &&
    (if regex then
      E.compiles find_term case_sensitive &&
        E.search find_term case_sensitive (basename t.1)
     else name_matches (basename t.1) find_term case_sensitive))

/-- The candidate `os.path.join(dirn, f"{root}({i}){ext}")` probed by
`next_nonconflicting_path`. -/
def nncCandidate (dirn root ext : List Char) (i : Nat) : List Char :=
  osJoin dirn (root ++ '(' :: (natDigits i ++ ')' :: ext))

/-- The probe loop of `next_nonconflicting_path`, with fuel. -/
def nncProbe (ex : List Char → Bool) (dirn root ext : List Char) :
    Nat → Nat → Option (List Char)
  | 0, _ => none
  | fuel + 1, i =>
    if ex (nncCandidate dirn root ext i) then nncProbe ex dirn root ext fuel (i + 1)
    else some (nncCandidate dirn root ext i)

/-- `next_nonconflicting_path(dst)` from the source, over the existence
predicate `ex`: return `dst` unchanged if it does not exist, else probe
`root(1)ext`, `root(2)ext`, … in the same directory. -/
def next_nonconflicting_path (ex : List Char → Bool) (fuel : Nat)
    (dst : List Char) : Option (List Char) :=
  if ex dst then
    nncProbe ex (osSplit dst).1 (splitext (osSplit dst).2).1
      (splitext (osSplit dst).2).2 fuel 1
  else some dst

/-- The numbered backup candidate `f"{src}.bak({i})"`. -/
def bakCandidate (src : List Char) (i : Nat) : List Char :=
  src ++ (".bak(".toList ++ natDigits i ++ [')'])

/-- The probe loop of `backup_nonconflicting_path`, with fuel. -/
def bakProbe (ex : List Char → Bool) (src : List Char) :
    Nat → Nat → Option (List Char)
  | 0, _ => none
  | fuel + 1, i =>
    if ex (bakCandidate src i) then bakProbe ex src fuel (i + 1)
    else some (bakCandidate src i)

/-- `backup_nonconflicting_path(src)` from the source: `src + ".bak"` if free,
else `src + ".bak(1)"`, `src + ".bak(2)"`, … -/
def backup_nonconflicting_path (ex : List Char → Bool) (fuel : Nat)
    (src : List Char) : Option (List Char) :=
  if ex (src ++ ".bak".toList) then bakProbe ex src fuel 1
  else some (src ++ ".bak".toList)

/-- Per-entry decision taken by the planning loop body. -/
inductive ItemPlan where
  | skip
  | add : List Char → ItemPlan
  | errorStop
deriving DecidableEq

/-- The per-entry part of `plan_changes`: skip ineligible entries; in regex
mode use `regex_replace_name` (a compile failure is caught and skipped); in
literal mode use `name_matches` then `ci_replace` (whose template error the
source does not catch: `errorStop`); skip no-op renames. -/
def plan_item (E : RegexEngine) (find_term replace_with : List Char)
    (case_sensitive : Bool) (exts : List (List Char)) (regex : Bool)
    (path : List Char) (is_dir : Bool) : ItemPlan :=
  if eligible path is_dir exts then
    let name := (osSplit path).2
    if regex then
      match regex_replace_name E name find_term replace_with case_sensitive with
      | none => ItemPlan.skip
      | some (matched, new_name) =>
        if matched then
          (if new_name = name then ItemPlan.skip else ItemPlan.add new_name)
        else ItemPlan.skip
    else
      if name_matches name find_term case_sensitive then
        match ci_replace name find_term replace_with case_sensitive with
        | none => ItemPlan.errorStop
        | some new_name =>
          if new_name = name then ItemPlan.skip else ItemPlan.add new_name
      else ItemPlan.skip
  else ItemPlan.skip

/-- `plan_changes` from the source, over an explicit walker output and
existence predicate: for each entry kept by `plan_item`, the destination is
`os.path.join(dirn, new_name)` passed through the collision resolver.
`none` models an escaped exception (`ci_replace` template error) or a
resolver probe that exceeds its fuel. -/
def plan_changes (E : RegexEngine) (ex : List Char → Bool) (fuel : Nat)
    (find_term replace_with : List Char) (case_sensitive : Bool)
    (exts : List (List Char)) (regex : Bool) :
    List (List Char × Bool) → Option (List (List Char × List Char × Bool))
  | [] => some []
  | (path, is_dir) :: rest =>
    match plan_item E find_term replace_with case_sensitive exts regex path is_dir with
    | ItemPlan.skip =>
      plan_changes E ex fuel find_term replace_with case_sensitive exts regex rest
    | ItemPlan.errorStop => none
    | ItemPlan.add new_name =>
      match next_nonconflicting_path ex fuel (osJoin (osSplit path).1 new_name) with
      | none => none
      | some dst_final =>
        (plan_changes E ex fuel find_term replace_with case_sensitive exts regex
            rest).map
          (fun l => (path, dst_final, is_dir) :: l)

/-- A user's answer to one `Rename this item? [y/n/q]` prompt. -/
inductive Decision where
  | approve
  | decline
  | quit
deriving DecidableEq

/-- The approve-each loop of `main` (lines 556-577), over a plan and the
sequence of valid per-prompt answers.  Returns the approved operations and
the number of prompts issued.  `q` prints "Stopping approvals early." and
breaks out of the inner input-validation loop only, so iteration continues
with the next planned operation; exhaustion of the decision list (Python
would raise `EOFError` on `input()`) ends the loop. -/
def approveEachLoop :
    List (List Char × List Char × Bool) → List Decision →
      List (List Char × List Char × Bool) × Nat
  | [], _ => ([], 0)
  | _ :: _, [] => ([], 0)
  | op :: rest, d :: ds =>
    let r := approveEachLoop rest ds
    match d with
    | Decision.approve => (op :: r.1, r.2 + 1)
    | Decision.decline => (r.1, r.2 + 1)
    | Decision.quit => (r.1, r.2 + 1)

/-- Outcome of the executor for one consumed operation. -/
inductive OutStatus where
  | dryRunS
  | appliedS
  | failedS
deriving DecidableEq

/-- The executor's interaction with the filesystem: whether `shutil.copy2`
raises for a given source, and whether `os.rename` raises for a given
source/destination pair. -/
structure ExecEnv where
  backupFails : List Char → Bool
  renameFails : List Char → List Char → Bool

/-- Outcome classification of one iteration of the execution loop of `main`
(lines 584-731): dry-run is terminal; with backup requested on a
non-directory entry, a copy failure is terminal failure (the `continue`
branch); otherwise the rename is attempted and succeeds or fails. -/
def execOutcome (env : ExecEnv) (dry_run backup : Bool) :
    List Char × List Char × Bool → OutStatus
  | (src, dst, is_dir) =>
    if dry_run then OutStatus.dryRunS
    else if backup && !is_dir && env.backupFails src then OutStatus.failedS
    else if env.renameFails src dst then OutStatus.failedS
    else OutStatus.appliedS

/-- Whether the `os.rename` call is reached for one operation: not in
dry-run, and not when a requested backup of a non-directory entry fails
(that branch `continue`s before the rename). -/
def renameAttempted (env : ExecEnv) (dry_run backup : Bool) :
    List Char × List Char × Bool → Bool
  | (src, _, is_dir) =>
    !dry_run && !(backup && !is_dir && env.backupFails src)

/-- One iteration of the execution loop of `main`, acting on the
`(renamed, errors)` accumulator: `renamed` is incremented in the dry-run and
successful-rename branches, `errors` in the backup-failure and
rename-failure branches. -/
def execCounterStep (env : ExecEnv) (dry_run backup : Bool)
    (acc : Nat × Nat) (op : List Char × List Char × Bool) : Nat × Nat :=
  match op with
  | (src, dst, is_dir) =>
    if dry_run then (acc.1 + 1, acc.2)
    else if backup && !is_dir && env.backupFails src then (acc.1, acc.2 + 1)
    else if env.renameFails src dst then (acc.1, acc.2 + 1)
    else (acc.1 + 1, acc.2)

/-- The execution loop of `main` over the consumed operations, starting from
zeroed counters.  Returns `(renamed, errors)`. -/
def execLoop (env : ExecEnv) (dry_run backup : Bool)
    (ops : List (List Char × List Char × Bool)) : Nat × Nat :=
  ops.foldl (execCounterStep env dry_run backup) (0, 0)

/-- The final counters printed by `main`. -/
structure Summary where
  total_found : Nat
  renamed : Nat
  skipped : Nat
  errors : Nat
deriving DecidableEq

/-- The post-planning flow of `main` (lines 551-744): approve-each filters
the plan; the execution loop produces `renamed` and `errors`; `skipped` is
recomputed as `total_found - renamed - errors` exactly when approve-each is
active, and stays 0 otherwise. -/
def runSummary (env : ExecEnv) (dry_run backup approve_each : Bool)
    (changes : List (List Char × List Char × Bool))
    (decisions : List Decision) : Summary :=
  let total_found := changes.length
  let to_apply :=
    if approve_each then (approveEachLoop changes decisions).1 else changes
  let re := execLoop env dry_run backup to_apply
  { total_found := total_found
    renamed := re.1
    skipped := if approve_each then total_found - re.1 - re.2 else 0
    errors := re.2 }

/-- The input validation of `main` (lines 431-441): exit code 2 when the
location is missing, the find term is missing or empty, or the location does
not exist; `none` when validation passes. -/
def validate_inputs (ex : List Char → Bool) (location find_term : List Char) :
    Option Nat :=
  if location = [] then some 2
  else if find_term = [] then some 2
  else if ex location = false then some 2
  else none

/-- The substitution `plan_changes` performs on one base name, as an
optional result: `some new_name` exactly when the name matches and substitution
returns `new_name` (regex mode: a successful search; literal mode:
`name_matches` and a successful `ci_replace`). -/
def substNewName (E : RegexEngine) (find_term replace_with : List Char)
    (case_sensitive : Bool) (regex : Bool) (name : List Char) :
    Option (List Char) :=
  if regex then
    match regex_replace_name E name find_term replace_with case_sensitive with
    | some (true, new_name) => some new_name
    | _ => none
  else
    if name_matches name find_term case_sensitive then
      ci_replace name find_term replace_with case_sensitive
    else none

/-! ### List helpers for the path lemmas -/

theorem takeWhile_append_of_all {p : Char → Bool} :
    ∀ {xs ys : List Char}, (∀ x ∈ xs, p x = true) →
      (xs ++ ys).takeWhile p = xs ++ ys.takeWhile p := by
  intro xs
  induction xs with
  | nil => intro ys _; simp
  | cons a t ih =>
    intro ys h
    have ha : p a = true := h a (by simp)
    simp [List.takeWhile_cons, ha]
    exact ih (fun x hx => h x (by simp [hx]))

theorem dropWhile_append_of_all {p : Char → Bool} :
    ∀ {xs ys : List Char}, (∀ x ∈ xs, p x = true) →
      (xs ++ ys).dropWhile p = ys.dropWhile p := by
  intro xs
  induction xs with
  | nil => intro ys _; simp
  | cons a t ih =>
    intro ys h
    have ha : p a = true := h a (by simp)
    simp [List.dropWhile_cons, ha]
    exact ih (fun x hx => h x (by simp [hx]))

theorem takeWhile_eq_self_of_all {p : Char → Bool} {xs : List Char}
    (h : ∀ x ∈ xs, p x = true) : xs.takeWhile p = xs := by
  have := @takeWhile_append_of_all p xs [] h
  simpa using this

theorem dropWhile_eq_nil_of_all {p : Char → Bool} {xs : List Char}
    (h : ∀ x ∈ xs, p x = true) : xs.dropWhile p = [] := by
  have := @dropWhile_append_of_all p xs [] h
  simpa using this

theorem dropWhile_head_false {p : Char → Bool} :
    ∀ {xs : List Char} {c : Char} {t : List Char},
      xs.dropWhile p = c :: t → p c = false := by
  intro xs
  induction xs with
  | nil => intro c t h; simp at h
  | cons a l ih =>
    intro c t h
    by_cases ha : p a = true
    · rw [List.dropWhile_cons_of_pos ha] at h
      exact ih h
    · rw [List.dropWhile_cons_of_neg ha] at h
      cases h
      simpa using ha

/-! ### Path algebra: split after join -/

theorem stripTrailingSlashes_of_all {h : List Char}
    (hall : ∀ c ∈ h, c = '/') : stripTrailingSlashes h = h := by
  unfold stripTrailingSlashes
  rw [if_neg]
  intro hany
  rcases List.any_eq_true.mp hany with ⟨x, hx, hxne⟩
  have hxne2 : x ≠ '/' := by simpa using hxne
  exact hxne2 (hall x hx)

theorem stripTrailingSlashes_normal (h : List Char) :
    (stripTrailingSlashes h).reverse.head? = some '/' →
      ∀ c ∈ stripTrailingSlashes h, c = '/' := by
  unfold stripTrailingSlashes
  by_cases hA : h.any (fun c => c ≠ '/')
  · rw [if_pos hA]
    intro hh c hc
    exfalso
    rw [List.reverse_reverse] at hh
    rcases hd : h.reverse.dropWhile (fun c => c = '/') with _ | ⟨a, t⟩
    · rw [hd] at hh; simp at hh
    · rw [hd] at hh
      simp only [List.head?_cons, Option.some.injEq] at hh
      have := dropWhile_head_false hd
      rw [hh] at this
      simp at this
  · rw [if_neg hA]
    intro _ c hc
    by_contra hne
    exact hA (List.any_eq_true.mpr ⟨c, hc, by simpa using hne⟩)

theorem stripTrailingSlashes_append_slash {d : List Char}
    (hne : d ≠ []) (hns : d.reverse.head? ≠ some '/') :
    stripTrailingSlashes (d ++ ['/']) = d := by
  rcases hrev : d.reverse with _ | ⟨a, t⟩
  · exact absurd (by simpa using congrArg List.reverse hrev) hne
  have ha : a ≠ '/' := by
    intro h
    exact hns (by rw [hrev, h]; rfl)
  have hamem : a ∈ d := by
    have : a ∈ d.reverse := by rw [hrev]; simp
    simpa using this
  unfold stripTrailingSlashes
  rw [if_pos (List.any_eq_true.mpr ⟨a, by simp [hamem], by simpa using ha⟩)]
  rw [List.reverse_append, hrev]
  simp only [List.reverse_cons, List.reverse_nil, List.nil_append,
    List.singleton_append]
  rw [List.dropWhile_cons_of_pos (by simp), List.dropWhile_cons_of_neg
    (by simpa using ha)]
  rw [← hrev, List.reverse_reverse]

theorem osSplit_fst_normal (p : List Char) :
    (osSplit p).1.reverse.head? = some '/' → ∀ c ∈ (osSplit p).1, c = '/' := by
  unfold osSplit
  exact stripTrailingSlashes_normal _

theorem osSplit_osJoin {d nm : List Char} (hn : sepFree nm)
    (hd : d.reverse.head? = some '/' → ∀ c ∈ d, c = '/') :
    osSplit (osJoin d nm) = (d, nm) := by
  have hnall : ∀ x ∈ nm.reverse, (fun c => decide (c ≠ '/')) x = true := by
    intro x hx
    have : x ∈ nm := by simpa using hx
    simp only [decide_eq_true_eq]
    intro hxe
    exact hn (hxe ▸ this)
  have hnb : ¬ (nm.head? = some '/') := by
    intro h
    rcases nm with _ | ⟨a, t⟩
    · simp at h
    · simp only [List.head?_cons, Option.some.injEq] at h
      exact hn (by rw [← h]; simp)
  unfold osJoin
  rw [if_neg hnb]
  by_cases hd0 : d = [] ∨ d.reverse.head? = some '/'
  · rw [if_pos hd0]
    rcases hd0 with rfl | hslash
    · simp only [List.nil_append]
      unfold osSplit
      rw [dropWhile_eq_nil_of_all hnall, takeWhile_eq_self_of_all hnall]
      simp [stripTrailingSlashes]
    · have hall : ∀ c ∈ d, c = '/' := hd hslash
      rcases hrev : d.reverse with _ | ⟨a, t⟩
      · rw [hrev] at hslash; simp at hslash
      have ha : a = '/' := by
        rw [hrev] at hslash; simpa using hslash
      unfold osSplit
      rw [List.reverse_append, hrev]
      rw [dropWhile_append_of_all hnall, takeWhile_append_of_all hnall]
      rw [List.dropWhile_cons_of_neg (by simp [ha]),
        List.takeWhile_cons_of_neg (by simp [ha])]
      rw [← hrev, List.reverse_reverse]
      rw [stripTrailingSlashes_of_all hall]
      simp
  · push_neg at hd0
    rw [if_neg (by push_neg; exact hd0)]
    unfold osSplit
    have : (d ++ '/' :: nm).reverse = nm.reverse ++ '/' :: d.reverse := by
      simp
    rw [this]
    rw [dropWhile_append_of_all hnall, takeWhile_append_of_all hnall]
    rw [List.dropWhile_cons_of_neg (by simp), List.takeWhile_cons_of_neg (by simp)]
    rw [List.reverse_cons, List.reverse_reverse]
    rw [stripTrailingSlashes_append_slash hd0.1 hd0.2]
    simp

/-! ### Separator-freeness and splitext decomposition -/

theorem sepFree_append {a b : List Char} (ha : sepFree a) (hb : sepFree b) :
    sepFree (a ++ b) := by
  unfold sepFree at *
  intro h
  rcases List.mem_append.mp h with h1 | h1
  · exact ha h1
  · exact hb h1

theorem sepFree_cons {c : Char} {l : List Char} (hc : c ≠ '/') (hl : sepFree l) :
    sepFree (c :: l) := by
  unfold sepFree at *
  intro h
  rcases List.mem_cons.mp h with h1 | h1
  · exact hc h1.symm
  · exact hl h1

theorem sepFree_take {l : List Char} (h : sepFree l) (n : Nat) :
    sepFree (l.take n) := by
  unfold sepFree at *
  intro hm
  exact h (List.mem_of_mem_take hm)

theorem sepFree_drop {l : List Char} (h : sepFree l) (n : Nat) :
    sepFree (l.drop n) := by
  unfold sepFree at *
  intro hm
  exact h (List.mem_of_mem_drop hm)

theorem digitChar_ne_slash (d : Nat) : digitChar d ≠ '/' := by
  unfold digitChar
  split <;> decide

theorem natDigitsAux_sepFree : ∀ (fuel n : Nat), sepFree (natDigitsAux fuel n) := by
  intro fuel
  induction fuel with
  | zero => intro n; unfold natDigitsAux sepFree; simp
  | succ f ih =>
    intro n
    unfold natDigitsAux
    by_cases h : n < 10
    · rw [if_pos h]
      exact sepFree_cons (digitChar_ne_slash n) (by unfold sepFree; simp)
    · rw [if_neg h]
      exact sepFree_append (ih (n / 10))
        (sepFree_cons (digitChar_ne_slash (n % 10)) (by unfold sepFree; simp))

theorem natDigits_sepFree (n : Nat) : sepFree (natDigits n) :=
  natDigitsAux_sepFree (n + 1) n

theorem splitext_append (p : List Char) :
    (splitext p).1 ++ (splitext p).2 = p := by
  unfold splitext
  rcases lastIdxOf '.' p with _ | d
  · simp
  · simp only []
    split
    · exact List.take_append_drop d p
    · simp

/-! ### The collision-resolver probe loops -/

theorem nncProbe_spec {ex : List Char → Bool} {dirn root ext : List Char} :
    ∀ {fuel start : Nat} {c : List Char},
      nncProbe ex dirn root ext fuel start = some c →
      ∃ k, start ≤ k ∧ c = nncCandidate dirn root ext k ∧ ex c = false ∧
        ∀ j, start ≤ j → j < k → ex (nncCandidate dirn root ext j) = true := by
  intro fuel
  induction fuel with
  | zero => intro start c h; simp [nncProbe] at h
  | succ f ih =>
    intro start c h
    unfold nncProbe at h
    by_cases hx : ex (nncCandidate dirn root ext start) = true
    · rw [if_pos hx] at h
      rcases ih h with ⟨k, hk1, hk2, hk3, hk4⟩
      refine ⟨k, by omega, hk2, hk3, ?_⟩
      intro j hj1 hj2
      rcases Nat.eq_or_lt_of_le hj1 with rfl | hlt
      · exact hx
      · exact hk4 j hlt hj2
    · rw [if_neg hx] at h
      obtain rfl : nncCandidate dirn root ext start = c := Option.some.inj h
      refine ⟨start, Nat.le_refl _, rfl, by simpa using hx, ?_⟩
      intro j hj1 hj2
      omega

theorem nncProbe_total {ex : List Char → Bool} {dirn root ext : List Char} :
    ∀ {fuel start : Nat},
      (∃ k, start ≤ k ∧ k < start + fuel ∧
        ex (nncCandidate dirn root ext k) = false) →
      ∃ c, nncProbe ex dirn root ext fuel start = some c := by
  intro fuel
  induction fuel with
  | zero =>
    intro start h
    rcases h with ⟨k, h1, h2, _⟩
    omega
  | succ f ih =>
    intro start h
    by_cases hx : ex (nncCandidate dirn root ext start) = true
    · rcases h with ⟨k, h1, h2, h3⟩
      have hkne : k ≠ start := by
        intro he
        rw [he, hx] at h3
        cases h3
      rcases @ih (start + 1) ⟨k, by omega, by omega, h3⟩ with ⟨c, hc⟩
      exact ⟨c, by unfold nncProbe; rw [if_pos hx]; exact hc⟩
    · exact ⟨nncCandidate dirn root ext start, by unfold nncProbe; rw [if_neg hx]⟩

theorem bakProbe_spec {ex : List Char → Bool} {src : List Char} :
    ∀ {fuel start : Nat} {c : List Char},
      bakProbe ex src fuel start = some c →
      ∃ k, start ≤ k ∧ c = bakCandidate src k ∧ ex c = false ∧
        ∀ j, start ≤ j → j < k → ex (bakCandidate src j) = true := by
  intro fuel
  induction fuel with
  | zero => intro start c h; simp [bakProbe] at h
  | succ f ih =>
    intro start c h
    unfold bakProbe at h
    by_cases hx : ex (bakCandidate src start) = true
    · rw [if_pos hx] at h
      rcases ih h with ⟨k, hk1, hk2, hk3, hk4⟩
      refine ⟨k, by omega, hk2, hk3, ?_⟩
      intro j hj1 hj2
      rcases Nat.eq_or_lt_of_le hj1 with rfl | hlt
      · exact hx
      · exact hk4 j hlt hj2
    · rw [if_neg hx] at h
      obtain rfl : bakCandidate src start = c := Option.some.inj h
      refine ⟨start, Nat.le_refl _, rfl, by simpa using hx, ?_⟩
      intro j hj1 hj2
      omega

theorem bakProbe_total {ex : List Char → Bool} {src : List Char} :
    ∀ {fuel start : Nat},
      (∃ k, start ≤ k ∧ k < start + fuel ∧ ex (bakCandidate src k) = false) →
      ∃ c, bakProbe ex src fuel start = some c := by
  intro fuel
  induction fuel with
  | zero =>
    intro start h
    rcases h with ⟨k, h1, h2, _⟩
    omega
  | succ f ih =>
    intro start h
    by_cases hx : ex (bakCandidate src start) = true
    · rcases h with ⟨k, h1, h2, h3⟩
      have hkne : k ≠ start := by
        intro he
        rw [he, hx] at h3
        cases h3
      rcases @ih (start + 1) ⟨k, by omega, by omega, h3⟩ with ⟨c, hc⟩
      exact ⟨c, by unfold bakProbe; rw [if_pos hx]; exact hc⟩
    · exact ⟨bakCandidate src start, by unfold bakProbe; rw [if_neg hx]⟩

/-! ### Inversion lemmas for the planner -/

theorem regex_replace_name_matched {E : RegexEngine} {name f r : List Char}
    {cs : Bool} {nn : List Char}
    (h : regex_replace_name E name f r cs = some (true, nn)) :
    E.compiles f cs = true ∧ E.search f cs name = true ∧
      nn = E.subst f cs r name := by
  unfold regex_replace_name at h
  by_cases h1 : E.compiles f cs = true
  · rw [if_pos h1] at h
    by_cases h2 : E.search f cs name = true
    · rw [if_pos h2] at h
      have h3 := Option.some.inj h
      exact ⟨h1, h2, (congrArg Prod.snd h3).symm⟩
    · rw [if_neg h2] at h
      have h3 := Option.some.inj h
      exact absurd (congrArg Prod.fst h3) (by simp)
  · rw [if_neg h1] at h
    cases h

theorem plan_item_add {E : RegexEngine} {f r : List Char} {cs : Bool}
    {exts : List (List Char)} {rx : Bool} {path : List Char} {is_dir : Bool}
    {nn : List Char}
    (h : plan_item E f r cs exts rx path is_dir = ItemPlan.add nn) :
    eligible path is_dir exts = true ∧
    substNewName E f r cs rx ((osSplit path).2) = some nn ∧
    nn ≠ (osSplit path).2 := by
  unfold plan_item at h
  by_cases he : eligible path is_dir exts = true
  · rw [if_pos he] at h
    simp only [] at h
    refine ⟨he, ?_⟩
    unfold substNewName
    by_cases hrx : rx = true
    · rw [if_pos hrx] at h ⊢
      rcases hrr : regex_replace_name E ((osSplit path).2) f r cs with _ | ⟨m, nn0⟩
      · rw [hrr] at h; simp only [] at h; cases h
      · rw [hrr] at h
        simp only [] at h
        rcases m with _ | _
        · simp at h
        · simp only [if_pos rfl] at h
          by_cases hne : nn0 = (osSplit path).2
          · rw [if_pos hne] at h; cases h
          · rw [if_neg hne] at h
            cases h
            exact ⟨rfl, hne⟩
    · rw [if_neg hrx] at h ⊢
      by_cases hm : name_matches ((osSplit path).2) f cs = true
      · rw [if_pos hm] at h ⊢
        rcases hcr : ci_replace ((osSplit path).2) f r cs with _ | nn0
        · rw [hcr] at h; simp only [] at h; cases h
        · rw [hcr] at h
          simp only [] at h
          by_cases hne : nn0 = (osSplit path).2
          · rw [if_pos hne] at h; cases h
          · rw [if_neg hne] at h
            cases h
            exact ⟨rfl, hne⟩
      · rw [if_neg hm] at h; cases h
  · rw [if_neg he] at h; cases h

theorem substNewName_hit {E : RegexEngine} {f r : List Char} {cs rx : Bool}
    {name nn : List Char}
    (h : substNewName E f r cs rx name = some nn) :
    (if rx = true then E.compiles f cs && E.search f cs name
     else name_matches name f cs) = true := by
  unfold substNewName at h
  by_cases hrx : rx = true
  · rw [if_pos hrx] at h ⊢
    rcases hrr : regex_replace_name E name f r cs with _ | ⟨m, nn0⟩
    · rw [hrr] at h; cases h
    · rw [hrr] at h
      rcases m with _ | _
      · simp at h
      · rcases regex_replace_name_matched hrr with ⟨h1, h2, _⟩
        simp [h1, h2]
  · rw [if_neg hrx] at h ⊢
    by_cases hm : name_matches name f cs = true
    · exact hm
    · rw [if_neg hm] at h; cases h

theorem plan_changes_mem {E : RegexEngine} {ex : List Char → Bool} {fuel : Nat}
    {f r : List Char} {cs : Bool} {exts : List (List Char)} {rx : Bool} :
    ∀ {targets : List (List Char × Bool)}
      {ops : List (List Char × List Char × Bool)},
      plan_changes E ex fuel f r cs exts rx targets = some ops →
      ∀ {src dst : List Char} {d : Bool}, (src, dst, d) ∈ ops →
        (src, d) ∈ targets ∧
        ∃ nn, plan_item E f r cs exts rx src d = ItemPlan.add nn ∧
          next_nonconflicting_path ex fuel (osJoin (osSplit src).1 nn) =
            some dst := by
  intro targets
  induction targets with
  | nil =>
    intro ops h src dst d hm
    unfold plan_changes at h
    obtain rfl : ([] : List (List Char × List Char × Bool)) = ops :=
      Option.some.inj h
    simp at hm
  | cons t rest ih =>
    intro ops h src dst d hm
    rcases t with ⟨path, is_dir⟩
    unfold plan_changes at h
    rcases hpi : plan_item E f r cs exts rx path is_dir with _ | nn0 | _
    · rw [hpi] at h
      simp only [] at h
      rcases ih h hm with ⟨hmem, hrest⟩
      exact ⟨by simp [hmem], hrest⟩
    · rw [hpi] at h
      simp only [] at h
      rcases hnc : next_nonconflicting_path ex fuel
          (osJoin (osSplit path).1 nn0) with _ | dstf
      · rw [hnc] at h; simp only [] at h; cases h
      · rw [hnc] at h
        simp only [] at h
        rcases hrest : plan_changes E ex fuel f r cs exts rx rest with _ | ops'
        · rw [hrest] at h; cases h
        · rw [hrest] at h
          simp only [Option.map_some'] at h
          obtain rfl : (path, dstf, is_dir) :: ops' = ops := Option.some.inj h
          rcases List.mem_cons.mp hm with heq | hm'
          · cases heq
            exact ⟨by simp, nn0, hpi, hnc⟩
          · rcases ih hrest hm' with ⟨hmem, hr⟩
            exact ⟨by simp [hmem], hr⟩
    · rw [hpi] at h; simp only [] at h; cases h

theorem mem_find_matches {E : RegexEngine} {f : List Char} {cs : Bool}
    {exts : List (List Char)} {rx : Bool} {targets : List (List Char × Bool)}
    {src : List Char} {d : Bool} (hmem : (src, d) ∈ targets)
    (helig : eligible src d exts = true)
    (hhit : (if rx = true then E.compiles f cs && E.search f cs (basename src)
             else name_matches (basename src) f cs) = true) :
    (src, d) ∈ find_matches E f cs exts rx targets := by
  unfold find_matches
  apply List.mem_filter.mpr
  refine ⟨hmem, ?_⟩
  simp only [helig, Bool.true_and]
  exact hhit

/-! ### Executor counters versus outcome classification -/

theorem execCounterStep_eq (env : ExecEnv) (db bk : Bool) (acc : Nat × Nat)
    (op : List Char × List Char × Bool) :
    execCounterStep env db bk acc op =
      (acc.1 + (if (execOutcome env db bk op == OutStatus.dryRunS) ||
                   (execOutcome env db bk op == OutStatus.appliedS)
                then 1 else 0),
       acc.2 + (if execOutcome env db bk op == OutStatus.failedS
                then 1 else 0)) := by
  rcases op with ⟨src, dst, is_dir⟩
  unfold execCounterStep execOutcome
  simp only []
  by_cases h1 : db = true
  · simp [h1]
  · simp only [if_neg h1]
    by_cases h2 : (bk && !is_dir && env.backupFails src) = true
    · simp [h2]
    · simp only [if_neg h2]
      by_cases h3 : env.renameFails src dst = true
      · simp [h3]
      · simp [h3]

theorem execLoop_foldl_counts (env : ExecEnv) (db bk : Bool) :
    ∀ (ops : List (List Char × List Char × Bool)) (acc : Nat × Nat),
      ops.foldl (execCounterStep env db bk) acc =
        (acc.1 + ops.countP (fun op =>
            (execOutcome env db bk op == OutStatus.dryRunS) ||
            (execOutcome env db bk op == OutStatus.appliedS)),
         acc.2 + ops.countP (fun op =>
            execOutcome env db bk op == OutStatus.failedS)) := by
  intro ops
  induction ops with
  | nil => intro acc; simp
  | cons op rest ih =>
    intro acc
    rw [List.foldl_cons, ih, execCounterStep_eq]
    simp only [List.countP_cons, Prod.mk.injEq]
    constructor <;> omega

theorem execLoop_counts (env : ExecEnv) (db bk : Bool)
    (ops : List (List Char × List Char × Bool)) :
    execLoop env db bk ops =
      (ops.countP (fun op =>
          (execOutcome env db bk op == OutStatus.dryRunS) ||
          (execOutcome env db bk op == OutStatus.appliedS)),
       ops.countP (fun op => execOutcome env db bk op == OutStatus.failedS)) := by
  unfold execLoop
  rw [execLoop_foldl_counts]
  simp

/-! ### Last helpers -/

theorem pyInStr_nil (hay : List Char) : pyInStr [] hay = true := by
  unfold pyInStr
  cases hay with
  | nil => decide
  | cons a t =>
    have hpre : ([] : List Char).isPrefixOf (a :: t) = true := rfl
    apply List.any_eq_true.mpr
    exact ⟨a :: t, by simp [List.tails], hpre⟩

theorem sepFree_of_append_left {a b : List Char} (h : sepFree (a ++ b)) :
    sepFree a := by
  unfold sepFree at *
  intro hm
  exact h (List.mem_append.mpr (Or.inl hm))

theorem sepFree_of_append_right {a b : List Char} (h : sepFree (a ++ b)) :
    sepFree b := by
  unfold sepFree at *
  intro hm
  exact h (List.mem_append.mpr (Or.inr hm))

theorem nncCandidate_osSplit {dirn root ext : List Char} (i : Nat)
    (hr : sepFree root) (he : sepFree ext)
    (hd : dirn.reverse.head? = some '/' → ∀ c ∈ dirn, c = '/') :
    osSplit (nncCandidate dirn root ext i) =
      (dirn, root ++ '(' :: (natDigits i ++ ')' :: ext)) := by
  unfold nncCandidate
  apply osSplit_osJoin
  · apply sepFree_append hr
    apply sepFree_cons (by decide)
    apply sepFree_append (natDigits_sepFree i)
    exact sepFree_cons (by decide) he
  · exact hd

/-! ### Claim theorems -/

/-- Claim C1 (code evaluation at the failing input): in approve-each mode a
quit decision does not stop the approval loop.  With a plan of two
operations and decisions `[quit, approve]`, the loop issues a second prompt
and applies the second operation: `to_apply = [op2]` and two prompts are
issued, whereas the claim requires no prompt after the quit and no later
operation to be applied. -/
theorem approve_each_quit_behavior :
    approveEachLoop
        [("a1".toList, "b1".toList, false), ("a2".toList, "b2".toList, false)]
        [Decision.quit, Decision.approve] =
      ([("a2".toList, "b2".toList, false)], 2) := by decide

/-- Claim C2 (code evaluation at the failing input): in case-insensitive
literal mode the replacement string is not inserted literally.  Replacing
`"a"` by the two-character string of two backslashes in `"ab"` yields a
single backslash (re.sub collapses the template escape), while the
case-sensitive branch and the spec's literal-replacement reading both keep
both backslashes; a replacement of backslash-1 raises `re.error` (modelled
as `none`) instead of being inserted. -/
theorem ci_replace_template_expansion :
    ci_replace "ab".toList "a".toList "\\\\".toList false = some "\\b".toList ∧
    ci_replace "ab".toList "a".toList "\\\\".toList true = some "\\\\b".toList ∧
    ci_replace_literal_spec "ab".toList "a".toList "\\\\".toList false =
      "\\\\b".toList ∧
    ci_replace "ab".toList "a".toList "\\\\".toList false ≠
      some (ci_replace_literal_spec "ab".toList "a".toList "\\\\".toList false) ∧
    ci_replace "ab".toList "a".toList "\\1".toList false = none := by decide

/-- Claim C3 (counterexample): in regex mode the empty pattern does match —
`re.search("", name)` yields a zero-width match on every name, so
`find_matches` reports the entry and `regex_replace_name` reports
`matched = true`, contradicting the claim that the matcher with the empty
pattern reports no match. -/
theorem empty_regex_pattern_matches :
    find_matches reLiteralModel [] false [] true [("a.txt".toList, false)] =
      [("a.txt".toList, false)] ∧
    (regex_replace_name reLiteralModel "a.txt".toList [] "x".toList
        false).map Prod.fst = some true := by decide

/-- Claim C3 (amended): an empty find term never matches in literal mode
(`name_matches` returns false for every name); in regex mode an empty
pattern matches every eligible entry (`find_matches` degenerates to the
eligibility filter); and `main` rejects an empty find term with exit code 2
during validation, before any planning, so the program never plans under an
empty find term. -/
theorem empty_find_term_behavior :
    (∀ (name : List Char) (cs : Bool), name_matches name [] cs = false) ∧
    (∀ (cs : Bool) (exts : List (List Char)) (targets : List (List Char × Bool)),
      find_matches reLiteralModel [] cs exts true targets =
        targets.filter (fun t => eligible t.1 t.2 exts)) ∧
    (∀ (ex : List Char → Bool) (loc : List Char),
      validate_inputs ex loc [] = some 2) := by
  refine ⟨?_, ?_, ?_⟩
  · intro name cs
    unfold name_matches
    rw [if_pos rfl]
  · intro cs exts targets
    unfold find_matches
    apply List.filter_congr
    intro t _
    unfold reLiteralModel basename
    simp only []
    cases cs <;> simp [pyInStr_nil]
  · intro ex loc
    unfold validate_inputs
    by_cases h : loc = []
    · rw [if_pos h]
    · rw [if_neg h, if_pos rfl]

/-- Claim C4 (counterexample): the planner does not always keep an entry in
its directory.  With the literal replacement `"x/y"` for `"a"`, the entry
`base/a.txt` is planned with destination `base/x/y.txt`, whose parent
directory `base/x` differs from the source's parent `base`. -/
theorem plan_changes_parent_escape :
    plan_changes reLiteralModel (fun _ => false) 5 "a".toList "x/y".toList true
        [] false [("base/a.txt".toList, false)] =
      some [("base/a.txt".toList, "base/x/y.txt".toList, false)] ∧
    (osSplit "base/x/y.txt".toList).1 ≠ (osSplit "base/a.txt".toList).1 := by
  decide

/-- Claim C4 (amended): every rename operation produced by the planner keeps
the entry in its directory provided the substituted base name contains no
path separator (a separator can only enter through the replacement text):
for every planned `(source, destination, isDirectory)`, if the new base name
computed for the source is separator-free, then the destination's parent
directory equals the source's parent directory. -/
theorem plan_changes_parent_preserved
    (E : RegexEngine) (ex : List Char → Bool) (fuel : Nat)
    (f r : List Char) (cs : Bool) (exts : List (List Char)) (rx : Bool)
    (targets : List (List Char × Bool))
    (ops : List (List Char × List Char × Bool))
    (src dst : List Char) (d : Bool)
    (hplan : plan_changes E ex fuel f r cs exts rx targets = some ops)
    (hmem : (src, dst, d) ∈ ops)
    (hsep : ∀ nn, substNewName E f r cs rx (basename src) = some nn →
      sepFree nn) :
    (osSplit dst).1 = (osSplit src).1 := by
  rcases plan_changes_mem hplan hmem with ⟨_, nn, hpi, hnc⟩
  rcases plan_item_add hpi with ⟨_, hsub, _⟩
  have hsepnn : sepFree nn := hsep nn hsub
  have hnorm := osSplit_fst_normal src
  have hjs : osSplit (osJoin (osSplit src).1 nn) = ((osSplit src).1, nn) :=
    osSplit_osJoin hsepnn hnorm
  unfold next_nonconflicting_path at hnc
  by_cases hx : ex (osJoin (osSplit src).1 nn) = true
  · rw [if_pos hx] at hnc
    rcases nncProbe_spec hnc with ⟨k, _, hk2, _, _⟩
    rw [hjs] at hk2
    simp only [] at hk2
    have hre : (splitext nn).1 ++ (splitext nn).2 = nn := splitext_append nn
    have hr1 : sepFree (splitext nn).1 :=
      @sepFree_of_append_left (splitext nn).1 (splitext nn).2
        (by rw [hre]; exact hsepnn)
    have hr2 : sepFree (splitext nn).2 :=
      @sepFree_of_append_right (splitext nn).1 (splitext nn).2
        (by rw [hre]; exact hsepnn)
    rw [hk2, nncCandidate_osSplit k hr1 hr2 hnorm]
  · rw [if_neg hx] at hnc
    obtain rfl : osJoin (osSplit src).1 nn = dst := Option.some.inj hnc
    rw [hjs]

/-- Witness for the amended claim C4 at a concrete input: the plan for
`d/ab.txt` with find `"a"`, replacement `"x"` (separator-free) keeps the
destination `d/xb.txt` in the directory `d`. -/
theorem plan_changes_parent_preserved_witness :
    (osSplit "d/xb.txt".toList).1 = (osSplit "d/ab.txt".toList).1 :=
  plan_changes_parent_preserved reLiteralModel (fun _ => false) 5
    "a".toList "x".toList true [] false
    [("d/ab.txt".toList, false)]
    [("d/ab.txt".toList, "d/xb.txt".toList, false)]
    "d/ab.txt".toList "d/xb.txt".toList false
    (by decide) (by decide)
    (fun nn h => by
      have hv : substNewName reLiteralModel "a".toList "x".toList true false
          (basename "d/ab.txt".toList) = some "xb.txt".toList := by decide
      have hnn : "xb.txt".toList = nn := Option.some.inj (hv.symm.trans h)
      rw [← hnn]
      decide)

/-- Claim C5: the collision resolver returns the desired path unchanged when
it does not exist; otherwise it returns `stem(i)extension` (joined back onto
the desired path's directory) for the smallest positive `i` whose candidate
does not exist — every smaller positive index was probed and found to exist,
so candidates are probed in increasing order with no gap skipped — and in
every case the returned path does not exist.  The hypothesis supplies enough
fuel for the Python `while` loop to terminate. -/
theorem next_nonconflicting_path_spec (ex : List Char → Bool) (fuel : Nat)
    (dst : List Char)
    (hfuel : ex dst = true →
      ∃ i, 1 ≤ i ∧ i < 1 + fuel ∧
        ex (nncCandidate (osSplit dst).1 (splitext (osSplit dst).2).1
          (splitext (osSplit dst).2).2 i) = false) :
    ∃ p, next_nonconflicting_path ex fuel dst = some p ∧ ex p = false ∧
      (ex dst = false → p = dst) ∧
      (ex dst = true →
        ∃ i, 1 ≤ i ∧
          p = nncCandidate (osSplit dst).1 (splitext (osSplit dst).2).1
            (splitext (osSplit dst).2).2 i ∧
          ∀ j, 1 ≤ j → j < i →
            ex (nncCandidate (osSplit dst).1 (splitext (osSplit dst).2).1
              (splitext (osSplit dst).2).2 j) = true) := by
  by_cases hx : ex dst = true
  · rcases nncProbe_total (hfuel hx) with ⟨c, hc⟩
    rcases nncProbe_spec hc with ⟨k, hk1, hk2, hk3, hk4⟩
    refine ⟨c, ?_, hk3, fun hf => absurd hx (by simp [hf]),
      fun _ => ⟨k, hk1, hk2, hk4⟩⟩
    unfold next_nonconflicting_path
    rw [if_pos hx]
    exact hc
  · have hxf : ex dst = false := by simpa using hx
    refine ⟨dst, ?_, hxf, fun _ => rfl, fun hT => absurd hT hx⟩
    unfold next_nonconflicting_path
    rw [if_neg hx]

/-- Witness for claim C5 at a concrete input: with `d/a.txt` and `d/a(1).txt`
existing, the resolver needs the smallest free index 2. -/
theorem next_nonconflicting_path_spec_witness :
    ∃ p, next_nonconflicting_path
        (fun q => q == "d/a.txt".toList || q == "d/a(1).txt".toList) 5
        "d/a.txt".toList = some p ∧
      (fun q => q == "d/a.txt".toList || q == "d/a(1).txt".toList) p = false ∧
      ((fun q => q == "d/a.txt".toList || q == "d/a(1).txt".toList)
          "d/a.txt".toList = false → p = "d/a.txt".toList) ∧
      ((fun q => q == "d/a.txt".toList || q == "d/a(1).txt".toList)
          "d/a.txt".toList = true →
        ∃ i, 1 ≤ i ∧
          p = nncCandidate (osSplit "d/a.txt".toList).1
            (splitext (osSplit "d/a.txt".toList).2).1
            (splitext (osSplit "d/a.txt".toList).2).2 i ∧
          ∀ j, 1 ≤ j → j < i →
            (fun q => q == "d/a.txt".toList || q == "d/a(1).txt".toList)
              (nncCandidate (osSplit "d/a.txt".toList).1
                (splitext (osSplit "d/a.txt".toList).2).1
                (splitext (osSplit "d/a.txt".toList).2).2 j) = true) :=
  next_nonconflicting_path_spec
    (fun q => q == "d/a.txt".toList || q == "d/a(1).txt".toList) 5
    "d/a.txt".toList
    (fun _ => ⟨2, by decide, by decide, by decide⟩)

/-- Claim C9: `backup_nonconflicting_path` returns `source + ".bak"` when
that path does not exist, and otherwise `source + ".bak(" + i + ")"` for the
smallest positive `i` whose candidate does not exist (all smaller positive
indices probed and found existing); the disambiguator is appended after the
`.bak` suffix — the returned path is literally the source followed by a
backup suffix, never a path with the counter inserted before the source's
extension — and the returned path never exists. -/
theorem backup_nonconflicting_path_spec (ex : List Char → Bool) (fuel : Nat)
    (src : List Char)
    (hfuel : ex (src ++ ".bak".toList) = true →
      ∃ i, 1 ≤ i ∧ i < 1 + fuel ∧ ex (bakCandidate src i) = false) :
    ∃ p, backup_nonconflicting_path ex fuel src = some p ∧ ex p = false ∧
      (ex (src ++ ".bak".toList) = false → p = src ++ ".bak".toList) ∧
      (ex (src ++ ".bak".toList) = true →
        ∃ i, 1 ≤ i ∧ p = src ++ (".bak(".toList ++ natDigits i ++ [')']) ∧
          ∀ j, 1 ≤ j → j < i → ex (bakCandidate src j) = true) := by
  by_cases hx : ex (src ++ ".bak".toList) = true
  · rcases bakProbe_total (hfuel hx) with ⟨c, hc⟩
    rcases bakProbe_spec hc with ⟨k, hk1, hk2, hk3, hk4⟩
    refine ⟨c, ?_, hk3, fun hf => absurd (hf ▸ hx) Bool.false_ne_true,
      fun _ => ⟨k, hk1, hk2, hk4⟩⟩
    unfold backup_nonconflicting_path
    rw [if_pos hx]
    exact hc
  · have hxf : ex (src ++ ".bak".toList) = false := by simpa using hx
    refine ⟨src ++ ".bak".toList, ?_, hxf, fun _ => rfl,
      fun hT => absurd hT hx⟩
    unfold backup_nonconflicting_path
    rw [if_neg hx]

/-- Witness for claim C9 at a concrete input: with `a.pdf.bak` and
`a.pdf.bak(1)` existing, the backup path for `a.pdf` is `a.pdf.bak(2)`. -/
theorem backup_nonconflicting_path_spec_witness :
    ∃ p, backup_nonconflicting_path
        (fun q => q == "a.pdf.bak".toList || q == "a.pdf.bak(1)".toList) 5
        "a.pdf".toList = some p ∧
      (fun q => q == "a.pdf.bak".toList || q == "a.pdf.bak(1)".toList) p =
        false ∧
      ((fun q => q == "a.pdf.bak".toList || q == "a.pdf.bak(1)".toList)
          ("a.pdf".toList ++ ".bak".toList) = false →
        p = "a.pdf".toList ++ ".bak".toList) ∧
      ((fun q => q == "a.pdf.bak".toList || q == "a.pdf.bak(1)".toList)
          ("a.pdf".toList ++ ".bak".toList) = true →
        ∃ i, 1 ≤ i ∧
          p = "a.pdf".toList ++ (".bak(".toList ++ natDigits i ++ [')']) ∧
          ∀ j, 1 ≤ j → j < i →
            (fun q => q == "a.pdf.bak".toList || q == "a.pdf.bak(1)".toList)
              (bakCandidate "a.pdf".toList j) = true) :=
  backup_nonconflicting_path_spec
    (fun q => q == "a.pdf.bak".toList || q == "a.pdf.bak(1)".toList) 5
    "a.pdf".toList
    (fun _ => ⟨2, by decide, by decide, by decide⟩)

/-- Claim C6: the run counters satisfy `found` = number of planned
operations, `renamed` = number of SUCCESS plus DRY-RUN outcomes over the
consumed operations, `errors` = number of FAILED outcomes, and `skipped` =
`found - renamed - errors` exactly when approve-each is active; and for the
concrete scenario of 3 planned operations with approve-each decisions
[approve, decline, decline] and no filesystem failures, the final summary is
`renamed = 1`, `skipped = 2`, `errors = 0`. -/
theorem run_summary_counters :
    (∀ (env : ExecEnv) (dry_run backup approve_each : Bool)
        (changes : List (List Char × List Char × Bool))
        (decisions : List Decision),
      (runSummary env dry_run backup approve_each changes decisions).total_found
          = changes.length ∧
      (runSummary env dry_run backup approve_each changes decisions).renamed =
        (if approve_each = true then (approveEachLoop changes decisions).1
         else changes).countP
          (fun op => (execOutcome env dry_run backup op == OutStatus.dryRunS) ||
            (execOutcome env dry_run backup op == OutStatus.appliedS)) ∧
      (runSummary env dry_run backup approve_each changes decisions).errors =
        (if approve_each = true then (approveEachLoop changes decisions).1
         else changes).countP
          (fun op => execOutcome env dry_run backup op == OutStatus.failedS) ∧
      (runSummary env dry_run backup approve_each changes decisions).skipped =
        (if approve_each = true then
          changes.length -
            (runSummary env dry_run backup approve_each changes decisions).renamed -
            (runSummary env dry_run backup approve_each changes decisions).errors
         else 0)) ∧
    runSummary ⟨fun _ => false, fun _ _ => false⟩ false false true
        [("a1".toList, "b1".toList, false), ("a2".toList, "b2".toList, false),
         ("a3".toList, "b3".toList, false)]
        [Decision.approve, Decision.decline, Decision.decline] =
      { total_found := 3, renamed := 1, skipped := 2, errors := 0 } := by
  constructor
  · intro env dry_run backup approve_each changes decisions
    simp only [runSummary, execLoop_counts]
    refine ⟨?_, ?_, ?_, ?_⟩ <;> trivial
  · decide

/-- Claim C7: when backup is requested and the backup copy of a
non-directory entry fails, the item's rename is not attempted, the outcome
is FAILED, and the execution loop charges exactly one error for the item
while continuing with the remaining items (their counters are unchanged). -/
theorem backup_failure_fail_closed (env : ExecEnv) (src dst : List Char)
    (rest : List (List Char × List Char × Bool))
    (hfail : env.backupFails src = true) :
    execOutcome env false true (src, dst, false) = OutStatus.failedS ∧
    renameAttempted env false true (src, dst, false) = false ∧
    execLoop env false true ((src, dst, false) :: rest) =
      ((execLoop env false true rest).1,
       (execLoop env false true rest).2 + 1) := by
  have h1 : execOutcome env false true (src, dst, false) = OutStatus.failedS := by
    unfold execOutcome
    simp [hfail]
  refine ⟨h1, ?_, ?_⟩
  · unfold renameAttempted
    simp [hfail]
  · rw [execLoop_counts, execLoop_counts]
    simp only [List.countP_cons, h1]
    simp

/-- Witness for claim C7 at a concrete input: one failing backup followed by
one healthy item yields one error and one rename. -/
theorem backup_failure_fail_closed_witness :
    execOutcome ⟨fun _ => true, fun _ _ => false⟩ false true
        ("a".toList, "b".toList, false) = OutStatus.failedS ∧
    renameAttempted ⟨fun _ => true, fun _ _ => false⟩ false true
        ("a".toList, "b".toList, false) = false ∧
    execLoop ⟨fun _ => true, fun _ _ => false⟩ false true
        [("a".toList, "b".toList, false), ("c".toList, "d".toList, true)] =
      ((execLoop ⟨fun _ => true, fun _ _ => false⟩ false true
          [("c".toList, "d".toList, true)]).1,
       (execLoop ⟨fun _ => true, fun _ _ => false⟩ false true
          [("c".toList, "d".toList, true)]).2 + 1) :=
  backup_failure_fail_closed ⟨fun _ => true, fun _ _ => false⟩
    "a".toList "b".toList [("c".toList, "d".toList, true)] rfl

/-- Claim C8: a no-op rename is never proposed: every operation in the plan
has a substituted base name different from its original base name —
equivalently, an entry whose substitution returns the original name is
excluded from `plan_changes`. -/
theorem plan_changes_no_noop
    (E : RegexEngine) (ex : List Char → Bool) (fuel : Nat)
    (f r : List Char) (cs : Bool) (exts : List (List Char)) (rx : Bool)
    (targets : List (List Char × Bool))
    (ops : List (List Char × List Char × Bool))
    (src dst : List Char) (d : Bool)
    (hplan : plan_changes E ex fuel f r cs exts rx targets = some ops)
    (hmem : (src, dst, d) ∈ ops) :
    substNewName E f r cs rx (basename src) ≠ some (basename src) := by
  rcases plan_changes_mem hplan hmem with ⟨_, nn, hpi, _⟩
  rcases plan_item_add hpi with ⟨_, hsub, hne⟩
  intro hcontra
  have : some nn = some ((osSplit src).2) := hsub.symm.trans hcontra
  exact hne (Option.some.inj this)

/-- Witness for claim C8 at a concrete input: for the planned entry
`d/ab.txt` (find `"a"`, replacement `"x"`), the substitution does not return
the original base name. -/
theorem plan_changes_no_noop_witness :
    substNewName reLiteralModel "a".toList "x".toList true false
        (basename "d/ab.txt".toList) ≠
      some (basename "d/ab.txt".toList) :=
  plan_changes_no_noop reLiteralModel (fun _ => false) 5
    "a".toList "x".toList true [] false
    [("d/ab.txt".toList, false)]
    [("d/ab.txt".toList, "d/xb.txt".toList, false)]
    "d/ab.txt".toList "d/xb.txt".toList false
    (by decide) (by decide)

/-- Claim C10: planning refines find-only matching: every source path in the
output of `plan_changes` (with any replacement string) also appears, with
the same directory flag, in the output of `find_matches` under the same
configuration. -/
theorem plan_refines_find_matches
    (E : RegexEngine) (ex : List Char → Bool) (fuel : Nat)
    (f r : List Char) (cs : Bool) (exts : List (List Char)) (rx : Bool)
    (targets : List (List Char × Bool))
    (ops : List (List Char × List Char × Bool))
    (src dst : List Char) (d : Bool)
    (hplan : plan_changes E ex fuel f r cs exts rx targets = some ops)
    (hmem : (src, dst, d) ∈ ops) :
    (src, d) ∈ find_matches E f cs exts rx targets := by
  rcases plan_changes_mem hplan hmem with ⟨hmemT, nn, hpi, _⟩
  rcases plan_item_add hpi with ⟨helig, hsub, _⟩
  exact mem_find_matches hmemT helig (substNewName_hit hsub)

/-- Witness for claim C10 at a concrete input: the planned entry
`d/Report.txt` is also reported by find-only matching. -/
theorem plan_refines_find_matches_witness :
    ("d/Report.txt".toList, false) ∈
      find_matches reLiteralModel "report".toList false [] false
        [("d/draft.txt".toList, false), ("d/Report.txt".toList, false)] :=
  plan_refines_find_matches reLiteralModel (fun _ => false) 5
    "report".toList "Rpt".toList false [] false
    [("d/draft.txt".toList, false), ("d/Report.txt".toList, false)]
    [("d/Report.txt".toList, "d/Rpt.txt".toList, false)]
    "d/Report.txt".toList "d/Rpt.txt".toList false
    (by decide) (by decide)
